import Mathlib

/-!
Verification of the Gmail Auto-Label Sender userscript.

The definitions below are a shallow embedding of src/utils.ts and
src/index.ts. DOM state that the script reads (ancestor chains, rendered
filter rows, form inputs, buttons) is passed explicitly as values; the
asynchronous timer-driven polling loops are modelled as discrete tick
sequences; side effects (clicks, input writes, alerts) are recorded as
explicit action lists; window.location.hash is a field of an explicit
world state.
-/

namespace GmailAutoLabel

/-! ## Regex primitives (src/utils.ts)

The two regexes of utils.ts are embedded as backtracking matchers over
lists of characters, in continuation-passing style: a matcher consumes a
prefix of the input and returns the matched text on success. A greedy
one-or-more repetition prefers the longer consumption first, exactly as
the JS engine does. -/

/-- Character class [^\s@] of the validation regex in validateEmail. -/
def notSpaceAt (c : Char) : Bool := !c.isWhitespace && !(c == '@')

/-- Word character class \w of the bare-address regex (ASCII letters, digits, underscore). -/
def wordChar (c : Char) : Bool := c.isAlphanum || c == '_'

/-- Character class [\w.-] of the bare-address regex in extractEmailAddress. -/
def bareChar (c : Char) : Bool := wordChar c || c == '.' || c == '-'

/-- Greedy one-or-more repetition of the class p followed by the
continuation k, with backtracking; returns the whole matched text. -/
def matchPlus (p : Char → Bool) (k : List Char → Option (List Char)) : List Char → Option (List Char)
  | [] => none
  | c :: rest =>
    if p c then
      match matchPlus p k rest with
      | some m => some (c :: m)
      | none =>
        match k rest with
        | some m => some (c :: m)
        | none => none
    else none

/-- Single literal character ch followed by the continuation k. -/
def matchChar (ch : Char) (k : List Char → Option (List Char)) : List Char → Option (List Char)
  | [] => none
  | c :: rest =>
    if c == ch then
      match k rest with
      | some m => some (c :: m)
      | none => none
    else none

/-- End-of-input anchor. -/
def matchEnd : List Char → Option (List Char)
  | [] => some []
  | _ :: _ => none

/-- Anchored body of the validation regex of validateEmail. -/
def emailPat : List Char → Option (List Char) :=
  matchPlus notSpaceAt (matchChar '@' (matchPlus notSpaceAt (matchChar '.' (matchPlus notSpaceAt matchEnd))))

/-- validateEmail from src/utils.ts: the whole string must match the regex. -/
def validateEmail (email : String) : Bool :=
  (emailPat email.data).isSome

/-- Characters before the first closing angle bracket, requiring one to
exist. Models the greedy [^>]+ run followed by the literal bracket: the
greedy run stops exactly at the first closing bracket. -/
def takeToGt : List Char → Option (List Char)
  | [] => none
  | c :: rest =>
    if c == '>' then some []
    else
      match takeToGt rest with
      | some content => some (c :: content)
      | none => none

/-- Capture group of the first match of the angle-bracket regex of
extractEmailAddress, scanning start positions left to right as the JS
engine does; the captured content must be nonempty. -/
def angleCapture : List Char → Option (List Char)
  | [] => none
  | c :: rest =>
    if c == '<' then
      match takeToGt rest with
      | some (x :: xs) => some (x :: xs)
      | _ => angleCapture rest
    else angleCapture rest

/-- Bare-address regex of extractEmailAddress, anchored at the current
position. -/
def barePat : List Char → Option (List Char) :=
  matchPlus bareChar (matchChar '@' (matchPlus bareChar (matchChar '.' (matchPlus wordChar (fun _ => some [])))))

/-- Leftmost match of the bare-address regex. -/
def searchBare : List Char → Option (List Char)
  | [] => none
  | c :: rest =>
    match barePat (c :: rest) with
    | some m => some m
    | none => searchBare rest

/-- JS String.prototype.trim: strip whitespace from both ends. -/
def jsTrim (s : String) : String :=
  String.mk (((s.data.dropWhile Char.isWhitespace).reverse.dropWhile Char.isWhitespace).reverse)

/-- extractEmailAddress from src/utils.ts: first the angle-bracket form,
then the bare-address scan, then the raw trimmed text. -/
def extractEmailAddress (emailString : String) : String :=
  match angleCapture emailString.data with
  | some content => String.mk content
  | none =>
    match searchBare emailString.data with
    | some m => String.mk m
    | none => jsTrim emailString

/-! ## Sender extraction from the DOM (src/utils.ts)

extractSenderFromElement walks the ancestor chain of the clicked node.
At each ancestor it performs three read-only queries; what those queries
observe at one ancestor is a DomLevel value, and the whole walk is a list
of such levels, ordered from the clicked node upwards. -/

/-- Text-parsing step of method 3 of extractSenderFromElement: extract,
then keep the result only when it is nonempty (JS truthiness) and passes
validation. -/
def parseSender (text : String) : Option String :=
  let extracted := extractEmailAddress text
  if !extracted.data.isEmpty && validateEmail extracted then some extracted else none

/-- What the three per-level DOM queries of extractSenderFromElement
observe at one ancestor: the email attribute of the first descendant
matching the attribute selector, the email attribute of the node itself,
and the text content of the first descendant matching the sender-display
selector; none when the query finds nothing. -/
structure DomLevel where
  queryEmailAttr : Option String
  ownEmailAttr : Option String
  senderText : Option String
deriving DecidableEq

/-- Method 1: email attribute of a descendant, kept when nonempty and valid. -/
def method1 (lv : DomLevel) : Option String :=
  match lv.queryEmailAttr with
  | some email => if !email.data.isEmpty && validateEmail email then some email else none
  | none => none

/-- Method 2: email attribute of the node itself, kept when nonempty and valid. -/
def method2 (lv : DomLevel) : Option String :=
  match lv.ownEmailAttr with
  | some email => if !email.data.isEmpty && validateEmail email then some email else none
  | none => none

/-- Method 3: parse the text content of the sender-display descendant. -/
def method3 (lv : DomLevel) : Option String :=
  match lv.senderText with
  | some text => parseSender text
  | none => none

/-- One iteration of the loop body: the three methods in order, each
falling through to the next on failure. -/
def tryLevel (lv : DomLevel) : Option String :=
  match method1 lv with
  | some e => some e
  | none =>
    match method2 lv with
    | some e => some e
    | none => method3 lv

/-- The bounded upward walk: at most n levels, stopping at the first
success or when the chain runs out of ancestors. -/
def walkUp : Nat → List DomLevel → Option String
  | 0, _ => none
  | _ + 1, [] => none
  | n + 1, lv :: rest =>
    match tryLevel lv with
    | some e => some e
    | none => walkUp n rest

/-- extractSenderFromElement from src/utils.ts: the walk bounded at 15
levels starting at the clicked node. -/
def extractSenderFromElement (chain : List DomLevel) : Option String :=
  walkUp 15 chain

/-! ## Substring search (JS String.prototype.includes) -/

/-- JS String.prototype.includes on character lists: the needle occurs as
a contiguous segment of the haystack. -/
def listIncludes (needle : List Char) : List Char → Bool
  | [] => needle.isEmpty
  | c :: rest => needle.isPrefixOf (c :: rest) || listIncludes needle rest

/-- JS hay.includes(needle). -/
def includesStr (hay needle : String) : Bool :=
  listIncludes needle.data hay.data

/-! ## Polling waits (src/index.ts)

waitForLabels builds a promise that polls the DOM on a setInterval timer:
the first callback runs one interval after the call, the predicate is
checked first, then the elapsed-time timeout. The DOM is modelled as a
time-indexed predicate and ticks happen at times interval, 2 * interval,
and so on. The result records whether the wait resolved (true) or
rejected with the timeout error (false), together with the tick time at
which it settled. The fuel argument only bounds the recursion; enough
fuel is supplied at the call sites for the loop to always settle. -/

/-- Tick loop of the setInterval callback: at tick index k the time is
k * intervalMs; the predicate is evaluated first, then the timeout test
Date.now() - start > timeout. -/
def pollLoop (pred : Nat → Bool) (timeoutMs intervalMs : Nat) : Nat → Nat → Option (Bool × Nat)
  | 0, _ => none
  | fuel + 1, k =>
    if pred (k * intervalMs) then some (true, k * intervalMs)
    else if timeoutMs < k * intervalMs then some (false, k * intervalMs)
    else pollLoop pred timeoutMs intervalMs fuel (k + 1)

/-- waitForLabels from src/index.ts: 100 ms interval; the timeout
parameter defaults to 5000 ms at the call site in createNewFilter;
labelsPresent t tells whether document.querySelectorAll finds any label
element at time t. -/
def waitForLabels (labelsPresent : Nat → Bool) (timeout : Nat) : Option (Bool × Nat) :=
  pollLoop labelsPresent timeout 100 (timeout / 100 + 1) 1

/-! ## Filter matching and mutation (src/index.ts) -/

/-- First index satisfying a test, as Array.prototype.find does over the
rendered row list. -/
def findIdxFrom (p : String → Bool) : List String → Option Nat
  | [] => none
  | r :: rs => if p r then some 0 else (findIdxFrom p rs).map (· + 1)

/-- findFilterByMetadata from src/index.ts: the marker is the metadata
constant followed by the label name, and the result is the first rendered
row whose text content contains the marker. The constant METADATA_PREFIX
lives in src/constants.ts which is not part of the sources, so the
constant is passed as the argument mdPre; no claim depends on its value.
Rows are given as the text contents of the rendered rows, and the result
is the index of the matched row. -/
def findFilterByMetadata (mdPre labelName : String) (rows : List String) : Option Nat :=
  let metadataString := mdPre ++ labelName
  findIdxFrom (fun row => includesStr row metadataString) rows

/-- Button label variants tried by createNewFilter, in priority order. -/
def buttonTexts : List String :=
  ["Create a new filter", "Create new filter", "New filter", "Create filter"]

/-- The variant loop of createNewFilter: for each text variant in order,
find the first candidate element whose text contains it; the first
variant with a match wins. Buttons are given as the text contents of the
candidate elements. -/
def findButtonForTexts (buttons : List String) : List String → Option Nat
  | [] => none
  | t :: ts =>
    match findIdxFrom (fun b => includesStr b t) buttons with
    | some i => some i
    | none => findButtonForTexts buttons ts

/-- Locate the create-filter affordance as createNewFilter does. -/
def findCreateFilterBtn (buttons : List String) : Option Nat :=
  findButtonForTexts buttons buttonTexts

/-- createNewFilter from src/index.ts, reduced to the control flow the
claims are about: the button search is required and its absence raises;
the steps after a successful lookup (form fill, proceed, checkbox, final
manual hand-off) are abstracted into the outcome restOfWizard, since they
read further DOM state that is independent of the button search. -/
def createNewFilter (buttons : List String) (restOfWizard : Except String Unit) : Except String Unit :=
  match findCreateFilterBtn buttons with
  | none => Except.error "Could not find the create-a-new-filter button"
  | some _ => restOfWizard

/-- Observable UI actions performed by updateExistingFilter. -/
inductive UiAction where
  | clickRow
  | writeFrom (value : String)
  | dispatchInput
  | clickCancel
  | clickUpdate
deriving DecidableEq

/-- State of the filter edit form opened by clicking a matched row. -/
structure FilterFormState where
  fromValue : String
  cancelPresent : Bool
  updatePresent : Bool
deriving DecidableEq

/-- updateExistingFilter from src/index.ts: click the matched row, locate
the From input (none when absent, which raises); when the current value
already contains the new sender, click cancel when present and return
with no write; otherwise append the sender with the pipe separator,
dispatch the input event and click the update button when present. The
result carries the final form state and the recorded actions. -/
def updateExistingFilter (newSenderEmail : String) (form : Option FilterFormState) :
    Except String (FilterFormState × List UiAction) :=
  match form with
  | none => Except.error "Could not find From input field"
  | some f =>
    if includesStr f.fromValue newSenderEmail then
      Except.ok (f, UiAction.clickRow :: (if f.cancelPresent then [UiAction.clickCancel] else []))
    else
      let newValue := f.fromValue ++ " | " ++ newSenderEmail
      Except.ok ({ f with fromValue := newValue },
        UiAction.clickRow :: UiAction.writeFrom newValue :: UiAction.dispatchInput ::
          (if f.updatePresent then [UiAction.clickUpdate] else []))

/-- Test selecting the write actions. -/
def isWrite : UiAction → Bool
  | UiAction.writeFrom _ => true
  | _ => false

/-- Number of writes to the From criteria in an action list. -/
def countWrites (l : List UiAction) : Nat := (l.filter isWrite).length

/-- Test selecting the update-affordance clicks. -/
def isClickUpdate : UiAction → Bool
  | UiAction.clickUpdate => true
  | _ => false

/-- Number of update-affordance invocations in an action list. -/
def countUpdateClicks (l : List UiAction) : Nat := (l.filter isClickUpdate).length

/-! ## Orchestration (src/index.ts) -/

deriving instance DecidableEq for Except

/-- Hash fragment assigned by navigateToFiltersSettings. -/
def settingsHash : String := "settings/filters"

/-- The world state createOrUpdateFilter touches: the location hash and
the rendered filter rows of the settings view. The outcomes of the two
phases are oracles, since those phases read further DOM and timing state
but never touch window.location. -/
structure GmailWorld where
  hash : String
  filterRows : List String
  updateOutcome : Except String Unit
  createOutcome : Except String Unit
deriving DecidableEq

/-- navigateToFiltersSettings from src/index.ts: assigns the settings
fragment; its polling wait reads the DOM but never changes the hash, and
it resolves on timeout rather than rejecting. -/
def navigateToFiltersSettings (w : GmailWorld) : GmailWorld :=
  { w with hash := settingsHash }

/-- createOrUpdateFilter from src/index.ts: record the original hash,
navigate, dispatch on findFilterByMetadata, and only on success of the
chosen phase assign the original hash back; the catch block logs and
rethrows without restoring. -/
def createOrUpdateFilter (mdPre senderEmail labelName : String) (w : GmailWorld) :
    Except String Unit × GmailWorld :=
  let originalHash := w.hash
  let w1 := navigateToFiltersSettings w
  let phase :=
    match findFilterByMetadata mdPre labelName w1.filterRows with
    | some _ => w1.updateOutcome
    | none => w1.createOutcome
  match phase with
  | Except.ok _ => (Except.ok (), { w1 with hash := originalHash })
  | Except.error e => (Except.error e, w1)

/-- Observable events of the top-level handler. -/
inductive AppEvent where
  | consoleError (msg : String)
  | consoleLog (msg : String)
  | alertUser (msg : String)
  | filterOperation (sender labelName : String)
deriving DecidableEq

/-- handleAutoLabelClick from src/index.ts. Inputs: the stored
right-clicked element as its ancestor chain (none when nothing was
right-clicked), the result of the label prompt (none when cancelled), and
the outcome of createOrUpdateFilter as an oracle. The result is the list
of observable events in order; filterOperation stands for the
createOrUpdateFilter call, the only step that navigates or mutates the
UI. -/
def handleAutoLabelClick (rightClicked : Option (List DomLevel)) (promptResult : Option String)
    (opOutcome : Except String Unit) : List AppEvent :=
  match rightClicked with
  | none => [AppEvent.consoleError "No element was right-clicked"]
  | some chain =>
    match extractSenderFromElement chain with
    | none =>
      [AppEvent.consoleError "Could not detect sender email",
       AppEvent.alertUser "Could not detect sender email. Please try right-clicking directly on the email."]
    | some senderEmail =>
      match promptResult with
      | none => [AppEvent.consoleLog "User cancelled or entered empty label name"]
      | some labelName =>
        if labelName.data.isEmpty || (jsTrim labelName).data.isEmpty then
          [AppEvent.consoleLog "User cancelled or entered empty label name"]
        else
          match opOutcome with
          | Except.ok _ =>
            [AppEvent.filterOperation senderEmail (jsTrim labelName),
             AppEvent.alertUser ("Added filter for " ++ senderEmail ++ " with label " ++ labelName)]
          | Except.error e =>
            [AppEvent.filterOperation senderEmail (jsTrim labelName),
             AppEvent.consoleError e,
             AppEvent.alertUser ("Failed to create filter: " ++ e)]

/-! ## Lemmas about the matchers -/

theorem matchPlus_some {p : Char → Bool} {k : List Char → Option (List Char)} {l m : List Char}
    (h : matchPlus p k l = some m) :
    ∃ pre rest m', l = pre ++ rest ∧ m = pre ++ m' ∧ pre ≠ [] ∧
      (∀ c ∈ pre, p c = true) ∧ k rest = some m' := by
  induction l generalizing m with
  | nil => simp [matchPlus] at h
  | cons c l ih =>
    rw [matchPlus] at h
    cases hc : p c with
    | false => rw [hc] at h; simp at h
    | true =>
      rw [hc] at h
      simp only [if_true] at h
      cases hm : matchPlus p k l with
      | some m1 =>
        rw [hm] at h
        injection h with h
        subst h
        obtain ⟨pre, rest, m', hl, hm', hne, hall, hk⟩ := ih hm
        refine ⟨c :: pre, rest, m', by simp [hl], by simp [hm'], by simp, ?_, hk⟩
        intro x hx
        rcases List.mem_cons.mp hx with hx | hx
        · subst hx; exact hc
        · exact hall x hx
      | none =>
        rw [hm] at h
        cases hk : k l with
        | some m1 =>
          rw [hk] at h
          injection h with h
          subst h
          refine ⟨[c], l, m1, rfl, rfl, by simp, ?_, hk⟩
          intro x hx
          rw [List.mem_singleton] at hx
          subst hx; exact hc
        | none => rw [hk] at h; simp at h

theorem matchChar_some {ch : Char} {k : List Char → Option (List Char)} {l m : List Char}
    (h : matchChar ch k l = some m) :
    ∃ rest m', l = ch :: rest ∧ m = ch :: m' ∧ k rest = some m' := by
  cases l with
  | nil => simp [matchChar] at h
  | cons c rest =>
    rw [matchChar] at h
    cases hc : c == ch with
    | false => rw [hc] at h; simp at h
    | true =>
      rw [hc] at h
      simp only [if_true] at h
      cases hk : k rest with
      | some m1 =>
        rw [hk] at h
        injection h with h
        subst h
        have hce : c = ch := eq_of_beq hc
        subst hce
        exact ⟨rest, m1, rfl, rfl, hk⟩
      | none => rw [hk] at h; simp at h

theorem matchEnd_some {l m : List Char} (h : matchEnd l = some m) : l = [] ∧ m = [] := by
  cases l with
  | nil => simp [matchEnd] at h; simp [h]
  | cons c rest => simp [matchEnd] at h

theorem matchPlus_isSome {p : Char → Bool} {k : List Char → Option (List Char)}
    {pre rest : List Char} (hne : pre ≠ []) (hall : ∀ c ∈ pre, p c = true)
    (hk : (k rest).isSome) : (matchPlus p k (pre ++ rest)).isSome := by
  induction pre with
  | nil => exact absurd rfl hne
  | cons c pre ih =>
    have hc : p c = true := hall c (List.mem_cons_self c pre)
    rw [List.cons_append, matchPlus, hc, if_pos rfl]
    cases hm : matchPlus p k (pre ++ rest) with
    | some m => simp
    | none =>
      cases pre with
      | nil =>
        simp only [List.nil_append] at hm ⊢
        cases hk' : k rest with
        | some m => simp
        | none => rw [hk'] at hk; simp at hk
      | cons d pre' =>
        have hih := ih (by simp) (fun x hx => hall x (List.mem_cons_of_mem c hx))
        rw [hm] at hih
        simp at hih

theorem matchChar_isSome {ch : Char} {k : List Char → Option (List Char)} {rest : List Char}
    (hk : (k rest).isSome) : (matchChar ch k (ch :: rest)).isSome := by
  rw [matchChar]
  simp only [beq_self_eq_true, if_true]
  cases hk' : k rest with
  | some m => simp
  | none => rw [hk'] at hk; simp at hk

/-! ## Shape of validated addresses -/

theorem validateEmail_decomp {s : String} (h : validateEmail s = true) :
    ∃ a b c, s.data = a ++ '@' :: (b ++ '.' :: c) ∧ a ≠ [] ∧ b ≠ [] ∧ c ≠ [] ∧
      (∀ x ∈ a, notSpaceAt x = true) ∧ (∀ x ∈ b, notSpaceAt x = true) ∧
      (∀ x ∈ c, notSpaceAt x = true) := by
  rw [validateEmail, Option.isSome_iff_exists] at h
  obtain ⟨m, hm⟩ := h
  obtain ⟨a, r1, m1, hl1, _, hane, haall, hk1⟩ := matchPlus_some hm
  obtain ⟨r2, m2, hr1, _, hk2⟩ := matchChar_some hk1
  obtain ⟨b, r3, m3, hl3, _, hbne, hball, hk3⟩ := matchPlus_some hk2
  obtain ⟨r4, m4, hr3, _, hk4⟩ := matchChar_some hk3
  obtain ⟨c, r5, m5, hl5, _, hcne, hcall, hk5⟩ := matchPlus_some hk4
  obtain ⟨hr5, _⟩ := matchEnd_some hk5
  refine ⟨a, b, c, ?_, hane, hbne, hcne, haall, hball, hcall⟩
  rw [hl1, hr1, hl3, hr3, hl5, hr5, List.append_nil]

theorem validateEmail_intro {a b c : List Char} (hane : a ≠ []) (hbne : b ≠ []) (hcne : c ≠ [])
    (haall : ∀ x ∈ a, notSpaceAt x = true) (hball : ∀ x ∈ b, notSpaceAt x = true)
    (hcall : ∀ x ∈ c, notSpaceAt x = true) :
    validateEmail (String.mk (a ++ '@' :: (b ++ '.' :: c))) = true := by
  rw [validateEmail]
  show (emailPat (a ++ '@' :: (b ++ '.' :: c))).isSome = true
  rw [emailPat]
  apply matchPlus_isSome hane haall
  apply matchChar_isSome
  apply matchPlus_isSome hbne hball
  apply matchChar_isSome
  have hc : (matchPlus notSpaceAt matchEnd (c ++ [])).isSome := by
    apply matchPlus_isSome hcne hcall
    simp [matchEnd]
  rw [List.append_nil] at hc
  exact hc

theorem validateEmail_mem_at {s : String} (h : validateEmail s = true) : '@' ∈ s.data := by
  obtain ⟨a, b, c, hd, _⟩ := validateEmail_decomp h
  rw [hd]
  simp

theorem validateEmail_no_ws {s : String} (h : validateEmail s = true) :
    ∀ x ∈ s.data, x.isWhitespace = false := by
  obtain ⟨a, b, c, hd, _, _, _, haall, hball, hcall⟩ := validateEmail_decomp h
  intro x hx
  rw [hd] at hx
  have hns : ∀ y : Char, notSpaceAt y = true → y.isWhitespace = false := by
    intro y hy
    simp only [notSpaceAt, Bool.and_eq_true, Bool.not_eq_true'] at hy
    exact hy.1
  rcases List.mem_append.mp hx with hx | hx
  · exact hns x (haall x hx)
  · rcases List.mem_cons.mp hx with hx | hx
    · subst hx; decide
    · rcases List.mem_append.mp hx with hx | hx
      · exact hns x (hball x hx)
      · rcases List.mem_cons.mp hx with hx | hx
        · subst hx; decide
        · exact hns x (hcall x hx)

theorem validateEmail_ne_nil {s : String} (h : validateEmail s = true) : s.data ≠ [] := by
  intro hnil
  have := validateEmail_mem_at h
  rw [hnil] at this
  simp at this

/-! ## Lemmas about the angle-bracket scan -/

theorem takeToGt_append {mid post : List Char} (h : '>' ∉ mid) :
    takeToGt (mid ++ '>' :: post) = some mid := by
  induction mid with
  | nil => simp [takeToGt]
  | cons c mid ih =>
    have hc : ¬ c = '>' := fun hc => h (by rw [hc]; exact List.mem_cons_self _ _)
    have hm : '>' ∉ mid := fun hm => h (List.mem_cons_of_mem c hm)
    rw [List.cons_append, takeToGt]
    simp only [beq_iff_eq, if_neg hc, ih hm]

theorem takeToGt_mem {l content : List Char} (h : takeToGt l = some content) :
    ∀ c ∈ content, c ∈ l := by
  induction l generalizing content with
  | nil => simp [takeToGt] at h
  | cons c l ih =>
    rw [takeToGt] at h
    by_cases hc : c == '>'
    · rw [if_pos hc] at h
      injection h with h
      subst h
      intro x hx
      simp at hx
    · rw [if_neg hc] at h
      cases ht : takeToGt l with
      | some content' =>
        rw [ht] at h
        injection h with h
        subst h
        intro x hx
        rcases List.mem_cons.mp hx with hx | hx
        · subst hx; exact List.mem_cons_self _ _
        · exact List.mem_cons_of_mem c (ih ht x hx)
      | none => rw [ht] at h; simp at h

theorem angleCapture_mem {l content : List Char} (h : angleCapture l = some content) :
    ∀ c ∈ content, c ∈ l := by
  induction l generalizing content with
  | nil => simp [angleCapture] at h
  | cons c l ih =>
    rw [angleCapture] at h
    by_cases hc : c == '<'
    · rw [if_pos hc] at h
      cases ht : takeToGt l with
      | some content' =>
        rw [ht] at h
        cases content' with
        | nil =>
          intro x hx
          exact List.mem_cons_of_mem c (ih h x hx)
        | cons y ys =>
          injection h with h
          subst h
          intro x hx
          exact List.mem_cons_of_mem c (takeToGt_mem ht x hx)
      | none =>
        rw [ht] at h
        intro x hx
        exact List.mem_cons_of_mem c (ih h x hx)
    · rw [if_neg hc] at h
      intro x hx
      exact List.mem_cons_of_mem c (ih h x hx)

theorem angleCapture_eq {pre mid post : List Char} (hp : '<' ∉ pre) (hm : '>' ∉ mid)
    (hne : mid ≠ []) : angleCapture (pre ++ '<' :: (mid ++ '>' :: post)) = some mid := by
  induction pre with
  | nil =>
    rw [List.nil_append, angleCapture]
    simp only [beq_self_eq_true, if_pos rfl]
    rw [takeToGt_append hm]
    cases mid with
    | nil => exact absurd rfl hne
    | cons x xs => rfl
  | cons c pre ih =>
    have hc : ¬ c = '<' := fun hc => hp (by rw [hc]; exact List.mem_cons_self _ _)
    have hp' : '<' ∉ pre := fun hx => hp (List.mem_cons_of_mem c hx)
    rw [List.cons_append, angleCapture]
    simp only [beq_iff_eq, if_neg hc]
    exact ih hp'

theorem angleCapture_isSome {mid post : List Char} (hm : '>' ∉ mid) (hne : mid ≠ []) :
    ∀ pre : List Char, (angleCapture (pre ++ '<' :: (mid ++ '>' :: post))).isSome := by
  intro pre
  induction pre with
  | nil =>
    rw [List.nil_append, angleCapture]
    simp only [beq_self_eq_true, if_pos rfl]
    rw [takeToGt_append hm]
    cases mid with
    | nil => exact absurd rfl hne
    | cons x xs => simp
  | cons c pre ih =>
    rw [List.cons_append, angleCapture]
    by_cases hc : c == '<'
    · rw [if_pos hc]
      cases ht : takeToGt (pre ++ '<' :: (mid ++ '>' :: post)) with
      | some content =>
        cases content with
        | nil => exact ih
        | cons y ys => simp
      | none => exact ih
    · rw [if_neg hc]
      exact ih

/-! ## Lemmas about the bare-address scan -/

theorem matchChar_none_of_head {ch : Char} {k : List Char → Option (List Char)}
    {l : List Char} (h : ch ∉ l) : matchChar ch k l = none := by
  cases l with
  | nil => rfl
  | cons c rest =>
    have hc : ¬ c = ch := fun hc => h (by rw [hc]; exact List.mem_cons_self _ _)
    rw [matchChar]
    simp only [beq_iff_eq, if_neg hc]

theorem matchPlus_matchChar_none {p : Char → Bool} {ch : Char}
    {k : List Char → Option (List Char)} {l : List Char} (h : ch ∉ l) :
    matchPlus p (matchChar ch k) l = none := by
  induction l with
  | nil => rfl
  | cons c rest ih =>
    have hr : ch ∉ rest := fun hx => h (List.mem_cons_of_mem c hx)
    rw [matchPlus, ih hr, matchChar_none_of_head hr]
    simp

theorem barePat_none {l : List Char} (h : '@' ∉ l) : barePat l = none := by
  rw [barePat]
  exact matchPlus_matchChar_none h

theorem searchBare_none {l : List Char} (h : '@' ∉ l) : searchBare l = none := by
  induction l with
  | nil => rfl
  | cons c rest ih =>
    have hr : '@' ∉ rest := fun hx => h (List.mem_cons_of_mem c hx)
    rw [searchBare, barePat_none h, ih hr]

theorem wordChar_notSpaceAt {c : Char} (h : wordChar c = true) : notSpaceAt c = true := by
  rw [wordChar, Bool.or_eq_true] at h
  rcases h with h | h
  · rw [notSpaceAt]
    rw [Bool.and_eq_true]
    constructor
    · rw [Bool.not_eq_true']
      cases hw : c.isWhitespace with
      | false => rfl
      | true =>
        exfalso
        have : c = ' ' ∨ c = '\t' ∨ c = '\r' ∨ c = '\n' := by
          rw [Char.isWhitespace] at hw
          simp only [Bool.or_eq_true, decide_eq_true_eq] at hw
          tauto
        rcases this with h' | h' | h' | h' <;> rw [h'] at h <;> simp [Char.isAlphanum, Char.isAlpha, Char.isDigit, Char.isUpper, Char.isLower] at h
    · rw [Bool.not_eq_true']
      cases he : c == '@' with
      | false => rfl
      | true =>
        exfalso
        have : c = '@' := eq_of_beq he
        rw [this] at h
        simp [Char.isAlphanum, Char.isAlpha, Char.isDigit, Char.isUpper, Char.isLower] at h
  · have : c = '_' := eq_of_beq h
    rw [this]
    decide

theorem bareChar_notSpaceAt {c : Char} (h : bareChar c = true) : notSpaceAt c = true := by
  rw [bareChar, Bool.or_eq_true, Bool.or_eq_true] at h
  rcases h with h | h
  · rcases h with h | h
    · exact wordChar_notSpaceAt h
    · have : c = '.' := eq_of_beq h
      rw [this]; decide
  · have : c = '-' := eq_of_beq h
    rw [this]; decide

theorem barePat_valid {l m : List Char} (h : barePat l = some m) :
    validateEmail (String.mk m) = true := by
  rw [barePat] at h
  obtain ⟨a, r1, m1, _, hma, hane, haall, hk1⟩ := matchPlus_some h
  obtain ⟨r2, m2, _, hm1, hk2⟩ := matchChar_some hk1
  obtain ⟨b, r3, m3, _, hm2, hbne, hball, hk3⟩ := matchPlus_some hk2
  obtain ⟨r4, m4, _, hm3, hk4⟩ := matchChar_some hk3
  obtain ⟨c, r5, m5, _, hm4, hcne, hcall, hk5⟩ := matchPlus_some hk4
  injection hk5 with hk5
  rw [hma, hm1, hm2, hm3, hm4, ← hk5, List.append_nil]
  exact validateEmail_intro hane hbne hcne
    (fun x hx => bareChar_notSpaceAt (haall x hx))
    (fun x hx => bareChar_notSpaceAt (hball x hx))
    (fun x hx => wordChar_notSpaceAt (hcall x hx))

theorem searchBare_valid {l m : List Char} (h : searchBare l = some m) :
    validateEmail (String.mk m) = true := by
  induction l with
  | nil => simp [searchBare] at h
  | cons c rest ih =>
    rw [searchBare] at h
    cases hb : barePat (c :: rest) with
    | some m1 =>
      rw [hb] at h
      injection h with h
      subst h
      exact barePat_valid hb
    | none =>
      rw [hb] at h
      exact ih h

/-! ## Lemmas about trimming -/

theorem dropWhile_mem {p : Char → Bool} {l : List Char} :
    ∀ c ∈ l.dropWhile p, c ∈ l := by
  induction l with
  | nil => simp
  | cons x l ih =>
    intro c hc
    rw [List.dropWhile] at hc
    cases hp : p x with
    | true =>
      rw [hp] at hc
      exact List.mem_cons_of_mem x (ih c hc)
    | false =>
      rw [hp] at hc
      exact hc

theorem jsTrim_mem {s : String} : ∀ c ∈ (jsTrim s).data, c ∈ s.data := by
  intro c hc
  rw [jsTrim] at hc
  show c ∈ s.data
  rw [List.mem_reverse] at hc
  have h1 := dropWhile_mem c hc
  rw [List.mem_reverse] at h1
  exact dropWhile_mem c h1

theorem dropWhile_all_false {p : Char → Bool} {l : List Char}
    (h : ∀ c ∈ l, p c = false) : l.dropWhile p = l := by
  cases l with
  | nil => rfl
  | cons x l =>
    rw [List.dropWhile, h x (List.mem_cons_self x l)]

theorem jsTrim_eq_self {s : String} (h : ∀ c ∈ s.data, c.isWhitespace = false) :
    jsTrim s = s := by
  rw [jsTrim]
  rw [dropWhile_all_false h]
  rw [dropWhile_all_false (fun c hc => h c (List.mem_reverse.mp hc))]
  rw [List.reverse_reverse]

/-! ## Lemmas about extractEmailAddress and parseSender -/

theorem append_data (a b : String) : (a ++ b).data = a.data ++ b.data := rfl

theorem validateEmail_false_of_no_at {s : String} (h : '@' ∉ s.data) :
    validateEmail s = false := by
  cases hv : validateEmail s with
  | false => rfl
  | true => exact absurd (validateEmail_mem_at hv) h

theorem extractEmailAddress_no_at {s : String} (h : '@' ∉ s.data) :
    '@' ∉ (extractEmailAddress s).data := by
  unfold extractEmailAddress
  cases ha : angleCapture s.data with
  | some content =>
    intro hx
    exact h (angleCapture_mem ha '@' hx)
  | none =>
    rw [searchBare_none h]
    intro hx
    exact h (jsTrim_mem '@' hx)

theorem parseSender_eq_some {s r : String} (hext : extractEmailAddress s = r)
    (hne : r.data ≠ []) (hv : validateEmail r = true) : parseSender s = some r := by
  have hie : r.data.isEmpty = false := by
    cases hd : r.data with
    | nil => exact absurd hd hne
    | cons a t => rfl
  simp only [parseSender, hext, hv, hie]
  simp

theorem parseSender_none_of_no_at {s : String} (h : '@' ∉ s.data) : parseSender s = none := by
  have hv : validateEmail (extractEmailAddress s) = false :=
    validateEmail_false_of_no_at (extractEmailAddress_no_at h)
  simp only [parseSender, hv]
  simp

/-! ## Claim C4 -/

/-- Claim C4, counterexample. The claim quantifies over every text that
passes the validation regex; the string a<b>c@d.e passes it, yet the
parsing step extracts the angle-bracket content b, which fails
validation, so no validated address is produced. -/
theorem parseSender_valid_input_refuted :
    validateEmail "a<b>c@d.e" = true ∧ parseSender "a<b>c@d.e" = none := by
  constructor
  · decide
  · decide

/-- Claim C4, amended. For inputs of the form name-then-angle-bracketed
address, where the name part has no opening bracket and the address has
no closing bracket, the parsing step returns exactly the bracketed
address; a validated text in which the angle-bracket scan finds no
segment always yields some validated address; an input without an at
sign yields none. -/
theorem parseSender_spec :
    (∀ name addr : String, '<' ∉ name.data → '>' ∉ addr.data → validateEmail addr = true →
        parseSender (name ++ "<" ++ addr ++ ">") = some addr) ∧
    (∀ s : String, validateEmail s = true → angleCapture s.data = none →
        ∃ r, parseSender s = some r ∧ validateEmail r = true) ∧
    (∀ s : String, '@' ∉ s.data → parseSender s = none) := by
  refine ⟨?_, ?_, ?_⟩
  · intro name addr hn ha hv
    have hne : addr.data ≠ [] := validateEmail_ne_nil hv
    have hlt : ("<" : String).data = ['<'] := rfl
    have hgt : (">" : String).data = ['>'] := rfl
    have hdata : (name ++ "<" ++ addr ++ ">").data
        = name.data ++ '<' :: (addr.data ++ '>' :: []) := by
      rw [append_data, append_data, append_data, hlt, hgt]
      simp [List.append_assoc]
    have hcap : angleCapture (name ++ "<" ++ addr ++ ">").data = some addr.data := by
      rw [hdata]
      exact angleCapture_eq hn ha hne
    have hext : extractEmailAddress (name ++ "<" ++ addr ++ ">") = addr := by
      unfold extractEmailAddress
      rw [hcap]
    exact parseSender_eq_some hext hne hv
  · intro s hv ha
    cases hb : searchBare s.data with
    | some m =>
      have hext : extractEmailAddress s = String.mk m := by
        unfold extractEmailAddress
        rw [ha, hb]
      have hmv : validateEmail (String.mk m) = true := searchBare_valid hb
      have hne : (String.mk m).data ≠ [] := validateEmail_ne_nil hmv
      exact ⟨String.mk m, parseSender_eq_some hext hne hmv, hmv⟩
    | none =>
      have htrim : jsTrim s = s := jsTrim_eq_self (validateEmail_no_ws hv)
      have hext : extractEmailAddress s = s := by
        unfold extractEmailAddress
        rw [ha, hb, htrim]
      exact ⟨s, parseSender_eq_some hext (validateEmail_ne_nil hv) hv, hv⟩
  · intro s h
    exact parseSender_none_of_no_at h

/-- Claim C4, witness for the amended theorem at a concrete input. -/
theorem parseSender_spec_witness :
    parseSender ("Jane Doe " ++ "<" ++ "jane@example.com" ++ ">") = some "jane@example.com" := by
  exact parseSender_spec.1 "Jane Doe " "jane@example.com" (by decide) (by decide) (by decide)

/-! ## Claim C10 -/

/-- Claim C10: whenever the input contains a nonempty angle-bracket
segment, the angle-bracket scan succeeds and extractEmailAddress returns
exactly the captured content, validated or not, never reaching the
bare-address fallback; at the concrete input with an invalid bracketed
segment next to a valid bare address, the parsing step therefore yields
none. -/
theorem extractEmailAddress_angle_priority :
    (∀ (s : String) (pre mid post : List Char),
        s.data = pre ++ '<' :: (mid ++ '>' :: post) → mid ≠ [] → '>' ∉ mid →
        ∃ content, angleCapture s.data = some content ∧
          extractEmailAddress s = String.mk content) ∧
    parseSender "x <bad> good@a.com" = none := by
  constructor
  · intro s pre mid post hs hne hm
    have hsome := @angleCapture_isSome mid post hm hne pre
    rw [← hs] at hsome
    obtain ⟨content, hc⟩ := Option.isSome_iff_exists.mp hsome
    refine ⟨content, hc, ?_⟩
    unfold extractEmailAddress
    rw [hc]
  · decide

/-- Claim C10, witness at a concrete input. -/
theorem extractEmailAddress_angle_priority_witness :
    ∃ content, angleCapture ("a <b> c" : String).data = some content ∧
      extractEmailAddress "a <b> c" = String.mk content := by
  exact extractEmailAddress_angle_priority.1 "a <b> c" ['a', ' '] ['b'] [' ', 'c']
    (by decide) (by decide) (by decide)

/-! ## Claim C5 -/

theorem guardOpt_valid {email e : String}
    (h : (if !email.data.isEmpty && validateEmail email then some email else none) = some e) :
    validateEmail e = true := by
  by_cases hc : (!email.data.isEmpty && validateEmail email) = true
  · rw [if_pos hc] at h
    injection h with h
    subst h
    rw [Bool.and_eq_true] at hc
    exact hc.2
  · rw [if_neg hc] at h
    simp at h

theorem parseSender_valid {t e : String} (h : parseSender t = some e) :
    validateEmail e = true := by
  simp only [parseSender] at h
  exact guardOpt_valid h

theorem method1_valid {lv : DomLevel} {e : String} (h : method1 lv = some e) :
    validateEmail e = true := by
  rw [method1] at h
  cases hq : lv.queryEmailAttr with
  | some email => rw [hq] at h; exact guardOpt_valid h
  | none => rw [hq] at h; simp at h

theorem method2_valid {lv : DomLevel} {e : String} (h : method2 lv = some e) :
    validateEmail e = true := by
  rw [method2] at h
  cases hq : lv.ownEmailAttr with
  | some email => rw [hq] at h; exact guardOpt_valid h
  | none => rw [hq] at h; simp at h

theorem method3_valid {lv : DomLevel} {e : String} (h : method3 lv = some e) :
    validateEmail e = true := by
  rw [method3] at h
  cases hq : lv.senderText with
  | some text => rw [hq] at h; exact parseSender_valid h
  | none => rw [hq] at h; simp at h

theorem tryLevel_valid {lv : DomLevel} {e : String} (h : tryLevel lv = some e) :
    validateEmail e = true := by
  rw [tryLevel] at h
  cases h1 : method1 lv with
  | some e1 => rw [h1] at h; injection h with h; subst h; exact method1_valid h1
  | none =>
    rw [h1] at h
    cases h2 : method2 lv with
    | some e2 => rw [h2] at h; injection h with h; subst h; exact method2_valid h2
    | none => rw [h2] at h; exact method3_valid h

theorem walkUp_cons (n : Nat) (lv : DomLevel) (rest : List DomLevel) :
    walkUp (n + 1) (lv :: rest)
      = match tryLevel lv with | some e => some e | none => walkUp n rest := rfl

theorem walkUp_take (n : Nat) (chain : List DomLevel) :
    walkUp n chain = walkUp n (List.take n chain) := by
  induction n generalizing chain with
  | zero => rfl
  | succ n ih =>
    cases chain with
    | nil => rfl
    | cons lv rest =>
      rw [List.take_succ_cons, walkUp_cons, walkUp_cons]
      cases ht : tryLevel lv with
      | some e => rfl
      | none => exact ih rest

theorem walkUp_valid {n : Nat} {chain : List DomLevel} {e : String}
    (h : walkUp n chain = some e) : validateEmail e = true := by
  induction n generalizing chain with
  | zero => simp [walkUp] at h
  | succ n ih =>
    cases chain with
    | nil => simp [walkUp] at h
    | cons lv rest =>
      rw [walkUp_cons] at h
      cases ht : tryLevel lv with
      | some e1 => rw [ht] at h; injection h with h; subst h; exact tryLevel_valid ht
      | none => rw [ht] at h; exact ih h

theorem walkUp_none_iff (n : Nat) (chain : List DomLevel) :
    walkUp n chain = none ↔ ∀ lv ∈ List.take n chain, tryLevel lv = none := by
  induction n generalizing chain with
  | zero => simp [walkUp]
  | succ n ih =>
    cases chain with
    | nil => simp [walkUp]
    | cons lv rest =>
      rw [List.take_succ_cons, walkUp_cons]
      cases ht : tryLevel lv with
      | some e =>
        simp only [List.mem_cons]
        constructor
        · intro h; simp at h
        · intro h
          have := h lv (Or.inl rfl)
          rw [ht] at this
          simp at this
      | none =>
        rw [ih rest]
        constructor
        · intro h x hx
          rcases List.mem_cons.mp hx with hx | hx
          · subst hx; exact ht
          · exact h x hx
        · intro h x hx
          exact h x (List.mem_cons_of_mem lv hx)

/-- Claim C5: the walk inspects at most 15 levels (the result only
depends on the first 15 levels of the chain); each level runs the three
heuristics in order; any returned candidate passes validation; a level
whose heuristics succeed short-circuits the walk; and the result is none
exactly when every inspected level yields nothing. -/
theorem extractSender_spec :
    (∀ chain : List DomLevel,
        extractSenderFromElement chain = extractSenderFromElement (List.take 15 chain)) ∧
    (∀ lv : DomLevel,
        tryLevel lv = Option.orElse (method1 lv)
          (fun _ => Option.orElse (method2 lv) (fun _ => method3 lv))) ∧
    (∀ (chain : List DomLevel) (e : String),
        extractSenderFromElement chain = some e → validateEmail e = true) ∧
    (∀ (lv : DomLevel) (rest : List DomLevel) (e : String),
        tryLevel lv = some e → extractSenderFromElement (lv :: rest) = some e) ∧
    (∀ chain : List DomLevel,
        extractSenderFromElement chain = none ↔
          ∀ lv ∈ List.take 15 chain, tryLevel lv = none) := by
  refine ⟨?_, ?_, ?_, ?_, ?_⟩
  · intro chain
    exact walkUp_take 15 chain
  · intro lv
    rw [tryLevel]
    cases h1 : method1 lv with
    | some e => simp [Option.orElse]
    | none =>
      cases h2 : method2 lv with
      | some e => simp [Option.orElse]
      | none => simp [Option.orElse]
  · intro chain e h
    exact walkUp_valid h
  · intro lv rest e h
    have h15 : (15 : Nat) = 14 + 1 := rfl
    rw [extractSenderFromElement, h15, walkUp_cons, h]
  · intro chain
    exact walkUp_none_iff 15 chain

/-- Claim C5, witness: a one-level chain whose node carries a valid
email attribute short-circuits at that level. -/
theorem extractSender_spec_witness :
    extractSenderFromElement [⟨none, some "a@b.co", none⟩] = some "a@b.co" := by
  exact extractSender_spec.2.2.2.1 ⟨none, some "a@b.co", none⟩ [] "a@b.co" (by decide)

/-! ## Lemmas about substring search -/

theorem isPrefixOf_self_char (l : List Char) : l.isPrefixOf l = true := by
  induction l with
  | nil => rfl
  | cons c t ih => simp [List.isPrefixOf, ih]

theorem listIncludes_append_self (pre n : List Char) : listIncludes n (pre ++ n) = true := by
  induction pre with
  | nil =>
    cases n with
    | nil => rfl
    | cons c t =>
      rw [List.nil_append, listIncludes, isPrefixOf_self_char]
      rfl
  | cons c pre ih =>
    rw [List.cons_append, listIncludes, ih]
    simp

theorem includesStr_append_self (a s : String) : includesStr (a ++ s) s = true := by
  rw [includesStr, append_data]
  exact listIncludes_append_self a.data s.data

/-! ## Claim C3 -/

/-- Claim C3: running the update path twice with the same sender writes
the From criteria at most once overall; the second run finds the sender
already present, performs no write, leaves the form state unchanged,
clicks cancel exactly when it is present, and reports done. -/
theorem updateExistingFilter_idempotent :
    ∀ (newSenderEmail : String) (f : FilterFormState),
      ∃ f1 acts1, updateExistingFilter newSenderEmail (some f) = Except.ok (f1, acts1) ∧
        updateExistingFilter newSenderEmail (some f1) =
          Except.ok (f1, UiAction.clickRow ::
            (if f1.cancelPresent then [UiAction.clickCancel] else [])) ∧
        countWrites (acts1 ++ UiAction.clickRow ::
          (if f1.cancelPresent then [UiAction.clickCancel] else [])) ≤ 1 := by
  intro s f
  by_cases hc : includesStr f.fromValue s = true
  · refine ⟨f, UiAction.clickRow :: (if f.cancelPresent then [UiAction.clickCancel] else []),
      ?_, ?_, ?_⟩
    · simp [updateExistingFilter, hc]
    · simp [updateExistingFilter, hc]
    · cases f.cancelPresent with
      | true => simp [countWrites, isWrite]
      | false => simp [countWrites, isWrite]
  · have hcf : includesStr f.fromValue s = false := by
      cases h : includesStr f.fromValue s with
      | true => exact absurd h hc
      | false => rfl
    have hc2 : includesStr ((f.fromValue ++ " | ") ++ s) s = true :=
      includesStr_append_self (f.fromValue ++ " | ") s
    refine ⟨{ f with fromValue := f.fromValue ++ " | " ++ s },
      UiAction.clickRow :: UiAction.writeFrom (f.fromValue ++ " | " ++ s) ::
        UiAction.dispatchInput :: (if f.updatePresent then [UiAction.clickUpdate] else []),
      ?_, ?_, ?_⟩
    · simp [updateExistingFilter, hcf]
    · simp [updateExistingFilter, hc2]
    · cases f.updatePresent with
      | true => cases f.cancelPresent with
        | true => simp [countWrites, isWrite]
        | false => simp [countWrites, isWrite]
      | false => cases f.cancelPresent with
        | true => simp [countWrites, isWrite]
        | false => simp [countWrites, isWrite]

/-! ## Claim C9 -/

/-- Claim C9: with the From field holding the old address and the new
sender not contained in it, the update path writes exactly the
pipe-separator concatenation, dispatches the change notification, and
clicks the update affordance exactly once. -/
theorem updateExistingFilter_append :
    ∀ f : FilterFormState, f.fromValue = "old@example.com" → f.updatePresent = true →
      updateExistingFilter "jane@example.com" (some f) =
        Except.ok ({ f with fromValue := "old@example.com | jane@example.com" },
          [UiAction.clickRow, UiAction.writeFrom "old@example.com | jane@example.com",
           UiAction.dispatchInput, UiAction.clickUpdate]) ∧
      countUpdateClicks
        [UiAction.clickRow, UiAction.writeFrom "old@example.com | jane@example.com",
         UiAction.dispatchInput, UiAction.clickUpdate] = 1 ∧
      countWrites
        [UiAction.clickRow, UiAction.writeFrom "old@example.com | jane@example.com",
         UiAction.dispatchInput, UiAction.clickUpdate] = 1 := by
  intro f hv hu
  obtain ⟨fv, cp, up⟩ := f
  simp only at hv hu
  subst hv
  subst hu
  refine ⟨?_, by decide, by decide⟩
  cases cp with
  | true => decide
  | false => decide

/-- Claim C9, witness at a concrete form state. -/
theorem updateExistingFilter_append_witness :
    updateExistingFilter "jane@example.com" (some ⟨"old@example.com", false, true⟩) =
      Except.ok (⟨"old@example.com | jane@example.com", false, true⟩,
        [UiAction.clickRow, UiAction.writeFrom "old@example.com | jane@example.com",
         UiAction.dispatchInput, UiAction.clickUpdate]) := by
  exact (updateExistingFilter_append ⟨"old@example.com", false, true⟩ rfl rfl).1

/-! ## Lemmas about first-index search -/

theorem findIdxFrom_none {p : String → Bool} {l : List String}
    (h : ∀ r ∈ l, p r = false) : findIdxFrom p l = none := by
  induction l with
  | nil => rfl
  | cons r rs ih =>
    have hr := h r (List.mem_cons_self r rs)
    have ihh := ih (fun x hx => h x (List.mem_cons_of_mem r hx))
    simp [findIdxFrom, hr, ihh]

theorem findIdxFrom_first {p : String → Bool} {l : List String}
    (h : ∃ r ∈ l, p r = true) :
    ∃ i r, findIdxFrom p l = some i ∧ l.get? i = some r ∧ p r = true ∧
      ∀ j r', j < i → l.get? j = some r' → p r' = false := by
  induction l with
  | nil => simp at h
  | cons x xs ih =>
    cases hx : p x with
    | true =>
      refine ⟨0, x, by simp [findIdxFrom, hx], by simp, hx, ?_⟩
      intro j r' hj
      exact absurd hj (Nat.not_lt_zero j)
    | false =>
      have h' : ∃ r ∈ xs, p r = true := by
        rcases h with ⟨r, hr, hpr⟩
        rcases List.mem_cons.mp hr with h0 | h0
        · subst h0; rw [hx] at hpr; simp at hpr
        · exact ⟨r, h0, hpr⟩
      obtain ⟨i, r, hfi, hget, hpr, hfirst⟩ := ih h'
      refine ⟨i + 1, r, ?_, by simpa using hget, hpr, ?_⟩
      · simp [findIdxFrom, hx, hfi]
      · intro j r' hj hget'
        cases j with
        | zero =>
          simp at hget'
          subst hget'
          exact hx
        | succ j' =>
          apply hfirst j' r' (by omega)
          simpa using hget'

/-! ## Claim C6 -/

/-- Claim C6: the marker query returns none when no rendered row text
contains the marker (the metadata constant followed by the label name),
and when exactly one row contains it, returns that row regardless of the
text of the other rows. The query is a pure function of the row texts:
it returns only an index and changes no state. -/
theorem findFilterByMetadata_spec :
    ∀ (mdPre labelName : String) (rows : List String),
      ((∀ row ∈ rows, includesStr row (mdPre ++ labelName) = false) →
        findFilterByMetadata mdPre labelName rows = none) ∧
      (∀ i row, rows.get? i = some row → includesStr row (mdPre ++ labelName) = true →
        (∀ j row', j ≠ i → rows.get? j = some row' →
          includesStr row' (mdPre ++ labelName) = false) →
        findFilterByMetadata mdPre labelName rows = some i) := by
  intro mdPre labelName rows
  constructor
  · intro h
    rw [findFilterByMetadata]
    exact findIdxFrom_none h
  · intro i row hget hinc hothers
    have hex : ∃ r ∈ rows, includesStr r (mdPre ++ labelName) = true := by
      refine ⟨row, ?_, hinc⟩
      exact List.get?_mem hget
    obtain ⟨i', r', hfi, hget', hpr', hfirst⟩ := findIdxFrom_first hex
    rw [findFilterByMetadata]
    rw [hfi]
    by_cases hii : i' = i
    · rw [hii]
    · exfalso
      have := hothers i' r' hii hget'
      rw [this] at hpr'
      simp at hpr'

/-- Claim C6, witness: one unrelated row and one marked row. -/
theorem findFilterByMetadata_spec_witness :
    findFilterByMetadata "MARK " "News" ["alpha", "x MARK News y"] = some 1 := by
  apply (findFilterByMetadata_spec "MARK " "News" ["alpha", "x MARK News y"]).2 1 "x MARK News y"
    (by decide) (by decide)
  intro j row' hj hget
  rcases j with _ | _ | j
  · simp at hget
    subst hget
    decide
  · exact absurd rfl hj
  · simp at hget

/-! ## Claim C8 -/

theorem findButtonForTexts_none {buttons : List String} {texts : List String}
    (h : ∀ t ∈ texts, ∀ b ∈ buttons, includesStr b t = false) :
    findButtonForTexts buttons texts = none := by
  induction texts with
  | nil => rfl
  | cons t ts ih =>
    rw [findButtonForTexts]
    rw [findIdxFrom_none (h t (List.mem_cons_self t ts))]
    exact ih (fun x hx => h x (List.mem_cons_of_mem t hx))

/-- Claim C8: the creation path tries the button-text variants in
priority order and takes the first element matching the winning variant;
when no variant matches any element it raises the element-not-found
error instead of proceeding. -/
theorem createNewFilter_button_search :
    ∀ (buttons : List String) (restOfWizard : Except String Unit),
      ((∀ b ∈ buttons, ∀ t ∈ buttonTexts, includesStr b t = false) →
        createNewFilter buttons restOfWizard =
          Except.error "Could not find the create-a-new-filter button") ∧
      (∀ ts1 t ts2, buttonTexts = ts1 ++ t :: ts2 →
        (∀ t' ∈ ts1, ∀ b ∈ buttons, includesStr b t' = false) →
        (∃ b ∈ buttons, includesStr b t = true) →
        ∃ i b, findCreateFilterBtn buttons = some i ∧ buttons.get? i = some b ∧
          includesStr b t = true ∧ createNewFilter buttons restOfWizard = restOfWizard ∧
          ∀ j b', j < i → buttons.get? j = some b' → includesStr b' t = false) := by
  intro buttons rest
  constructor
  · intro h
    rw [createNewFilter, findCreateFilterBtn]
    rw [findButtonForTexts_none (fun t ht b hb => h b hb t ht)]
  · intro ts1 t ts2 hbt hts1 hex
    have hfind : ∃ i b, findButtonForTexts buttons (ts1 ++ t :: ts2) = some i ∧
        buttons.get? i = some b ∧ includesStr b t = true ∧
        ∀ j b', j < i → buttons.get? j = some b' → includesStr b' t = false := by
      clear hbt
      induction ts1 with
      | nil =>
        obtain ⟨i, b, hfi, hget, hpb, hfirst⟩ := findIdxFrom_first hex
        rw [List.nil_append, findButtonForTexts, hfi]
        exact ⟨i, b, rfl, hget, hpb, hfirst⟩
      | cons t' ts1' ih =>
        rw [List.cons_append, findButtonForTexts]
        rw [findIdxFrom_none (hts1 t' (List.mem_cons_self t' ts1'))]
        exact ih (fun x hx => hts1 x (List.mem_cons_of_mem t' hx))
    obtain ⟨i, b, hfi, hget, hpb, hfirst⟩ := hfind
    have hsome : findCreateFilterBtn buttons = some i := by
      rw [findCreateFilterBtn, hbt]
      exact hfi
    refine ⟨i, b, hsome, hget, hpb, ?_, hfirst⟩
    rw [createNewFilter, hsome]

/-- Claim C8, witness: the first variant misses, the last matches the
second element; and a button list with no match raises. -/
theorem createNewFilter_button_search_witness :
    (∃ i b, findCreateFilterBtn ["Settings", "Create filter now"] = some i ∧
      (["Settings", "Create filter now"] : List String).get? i = some b ∧
      includesStr b "Create filter" = true ∧
      createNewFilter ["Settings", "Create filter now"] (Except.ok ()) = Except.ok () ∧
      ∀ j b', j < i → (["Settings", "Create filter now"] : List String).get? j = some b' →
        includesStr b' "Create filter" = false) ∧
    createNewFilter ["nothing here"] (Except.ok ()) =
      Except.error "Could not find the create-a-new-filter button" := by
  constructor
  · exact (createNewFilter_button_search ["Settings", "Create filter now"] (Except.ok ())).2
      ["Create a new filter", "Create new filter", "New filter"] "Create filter" []
      (by decide) (by decide) ⟨"Create filter now", by decide, by decide⟩
  · exact (createNewFilter_button_search ["nothing here"] (Except.ok ())).1 (by decide)

/-! ## Claim C2 -/

theorem pollLoop_true {pred : Nat → Bool} (hp : ∀ t, pred t = true)
    (T I fuel k : Nat) : pollLoop pred T I (fuel + 1) k = some (true, k * I) := by
  rw [pollLoop, hp (k * I), if_pos rfl]

theorem pollLoop_false {pred : Nat → Bool} (hp : ∀ t, pred t = false) {T I : Nat}
    (hI : 0 < I) :
    ∀ fuel k, (k - 1) * I ≤ T → T / I + 2 ≤ fuel + k →
      ∃ t, pollLoop pred T I fuel k = some (false, t) ∧ T < t ∧ t ≤ T + I := by
  intro fuel
  induction fuel with
  | zero =>
    intro k hinv hfuel
    exfalso
    have hq := Nat.div_add_mod T I
    have hr : T % I < I := Nat.mod_lt _ hI
    have hk1 : T / I + 1 ≤ k - 1 := by omega
    have hmul : (T / I + 1) * I ≤ (k - 1) * I := Nat.mul_le_mul_right I hk1
    have hTlt : T < (T / I + 1) * I := by
      have hdist : (T / I + 1) * I = I * (T / I) + I := by ring
      omega
    omega
  | succ fuel ih =>
    intro k hinv hfuel
    rw [pollLoop, hp (k * I), if_neg (by simp)]
    by_cases ht : T < k * I
    · rw [if_pos ht]
      refine ⟨k * I, rfl, ht, ?_⟩
      have hk : 1 ≤ k := by
        by_contra hk0
        have hk00 : k = 0 := by omega
        rw [hk00] at ht
        simp at ht
      have hsplit : k * I = (k - 1) * I + I := by
        have hkk : k - 1 + 1 = k := by omega
        calc k * I = (k - 1 + 1) * I := by rw [hkk]
        _ = (k - 1) * I + I := by ring
      omega
    · rw [if_neg ht]
      apply ih (k + 1)
      · simpa using Nat.not_lt.mp ht
      · omega

/-- Claim C2, counterexample. With an always-true predicate the wait does
not resolve in less than one full interval: the first poll tick of the
setInterval loop runs only one interval (100 ms) after the call, so the
resolve time is exactly 100. -/
theorem pollWait_not_immediate :
    ¬ ∃ t, waitForLabels (fun _ => true) 5000 = some (true, t) ∧ t < 100 := by
  intro h
  obtain ⟨t, h1, h2⟩ := h
  have hval : waitForLabels (fun _ => true) 5000 = some (true, 100) := by decide
  rw [hval] at h1
  injection h1 with h1
  have : t = 100 := by
    have := Prod.mk.injEq true 100 true t ▸ h1
    simp at h1
    omega
  omega

/-- Claim C2, amended. An always-true predicate resolves at the first
poll tick, exactly one interval (100 ms) after the call, not sooner; an
always-false predicate rejects as timed out strictly after timeoutMs and
no later than timeoutMs plus one interval. -/
theorem pollWait_spec :
    (∀ (pred : Nat → Bool) (timeout : Nat), (∀ t, pred t = true) →
        waitForLabels pred timeout = some (true, 100)) ∧
    (∀ (pred : Nat → Bool) (timeout : Nat), (∀ t, pred t = false) →
        ∃ t, waitForLabels pred timeout = some (false, t) ∧
          timeout < t ∧ t ≤ timeout + 100) := by
  constructor
  · intro pred timeout hp
    rw [waitForLabels]
    have h := pollLoop_true hp timeout 100 (timeout / 100) 1
    simpa using h
  · intro pred timeout hp
    rw [waitForLabels]
    have h := @pollLoop_false pred hp timeout 100 (by omega)
      (timeout / 100 + 1) 1 (by simp) (by omega)
    exact h

/-- Claim C2, witness for the amended theorem at concrete parameters. -/
theorem pollWait_spec_witness :
    waitForLabels (fun _ => true) 5000 = some (true, 100) ∧
    ∃ t, waitForLabels (fun _ => false) 5000 = some (false, t) ∧
      5000 < t ∧ t ≤ 5000 + 100 := by
  constructor
  · exact pollWait_spec.1 (fun _ => true) 5000 (fun _ => rfl)
  · exact pollWait_spec.2 (fun _ => false) 5000 (fun _ => rfl)

/-! ## Claim C1 -/

/-- Claim C1, counterexample. When the chosen phase raises, the catch
block of createOrUpdateFilter rethrows without assigning the recorded
hash back: starting from the inbox view, a failing creation leaves the
hash different from the recorded original. -/
theorem hash_not_restored_on_error :
    (createOrUpdateFilter "p" "jane@example.com" "News"
        ⟨"inbox", [], Except.error "boom", Except.error "boom"⟩).1 = Except.error "boom" ∧
    (createOrUpdateFilter "p" "jane@example.com" "News"
        ⟨"inbox", [], Except.error "boom", Except.error "boom"⟩).2.hash ≠ "inbox" := by
  constructor
  · decide
  · decide

/-- Claim C1, amended. When the Creating/Updating phase succeeds the
final hash equals the hash recorded before navigation; when it raises,
the error propagates and the hash keeps the settings fragment, with no
restoration. -/
theorem createOrUpdateFilter_hash_spec :
    ∀ (mdPre senderEmail labelName : String) (w : GmailWorld),
      ((createOrUpdateFilter mdPre senderEmail labelName w).1 = Except.ok () →
        (createOrUpdateFilter mdPre senderEmail labelName w).2.hash = w.hash) ∧
      (∀ e, (createOrUpdateFilter mdPre senderEmail labelName w).1 = Except.error e →
        (createOrUpdateFilter mdPre senderEmail labelName w).2.hash = settingsHash) := by
  intro mdPre s l w
  cases hf : findFilterByMetadata mdPre l w.filterRows with
  | some i =>
    cases ho : w.updateOutcome with
    | ok u =>
      constructor
      · intro _
        simp [createOrUpdateFilter, navigateToFiltersSettings, hf, ho]
      · intro e he
        exfalso
        simp [createOrUpdateFilter, navigateToFiltersSettings, hf, ho] at he
    | error e' =>
      constructor
      · intro h
        exfalso
        simp [createOrUpdateFilter, navigateToFiltersSettings, hf, ho] at h
      · intro e he
        simp [createOrUpdateFilter, navigateToFiltersSettings, hf, ho]
  | none =>
    cases ho : w.createOutcome with
    | ok u =>
      constructor
      · intro _
        simp [createOrUpdateFilter, navigateToFiltersSettings, hf, ho]
      · intro e he
        exfalso
        simp [createOrUpdateFilter, navigateToFiltersSettings, hf, ho] at he
    | error e' =>
      constructor
      · intro h
        exfalso
        simp [createOrUpdateFilter, navigateToFiltersSettings, hf, ho] at h
      · intro e he
        simp [createOrUpdateFilter, navigateToFiltersSettings, hf, ho]

/-- Claim C1, witness: on a successful creation the hash is restored. -/
theorem createOrUpdateFilter_hash_spec_witness :
    (createOrUpdateFilter "p" "jane@example.com" "News"
        ⟨"inbox", [], Except.error "x", Except.ok ()⟩).2.hash = "inbox" := by
  exact (createOrUpdateFilter_hash_spec "p" "jane@example.com" "News"
    ⟨"inbox", [], Except.error "x", Except.ok ()⟩).1 (by decide)

/-! ## Claim C7 -/

/-- Claim C7: when the sender was detected but the label prompt is
cancelled or returns an empty or whitespace-only label, the handler only
logs: it performs no filter operation (hence no navigation and no UI
mutation) and raises no alert, so no failure is reported. -/
theorem handleAutoLabelClick_cancel_noop :
    ∀ (chain : List DomLevel) (senderEmail : String) (promptResult : Option String)
      (opOutcome : Except String Unit),
      extractSenderFromElement chain = some senderEmail →
      (promptResult = none ∨
        ∃ l, promptResult = some l ∧ (l.data = [] ∨ (jsTrim l).data = [])) →
      handleAutoLabelClick (some chain) promptResult opOutcome =
        [AppEvent.consoleLog "User cancelled or entered empty label name"] ∧
      ∀ e ∈ handleAutoLabelClick (some chain) promptResult opOutcome,
        (∀ s lb, e ≠ AppEvent.filterOperation s lb) ∧ ∀ m, e ≠ AppEvent.alertUser m := by
  intro chain s pr op hs hpr
  have heq : handleAutoLabelClick (some chain) pr op =
      [AppEvent.consoleLog "User cancelled or entered empty label name"] := by
    rcases hpr with h | ⟨l, h, hl⟩
    · subst h
      simp [handleAutoLabelClick, hs]
    · subst h
      rcases hl with hl | hl
      · simp [handleAutoLabelClick, hs, hl]
      · simp [handleAutoLabelClick, hs, hl]
  refine ⟨heq, ?_⟩
  rw [heq]
  intro e he
  simp at he
  subst he
  constructor
  · intro s' lb
    simp
  · intro m
    simp

/-- Claim C7, witness: a chain with a valid email attribute and a
cancelled prompt. -/
theorem handleAutoLabelClick_cancel_noop_witness :
    handleAutoLabelClick (some [⟨some "jane@example.com", none, none⟩]) none (Except.ok ()) =
      [AppEvent.consoleLog "User cancelled or entered empty label name"] := by
  exact (handleAutoLabelClick_cancel_noop [⟨some "jane@example.com", none, none⟩]
    "jane@example.com" none (Except.ok ()) (by decide) (Or.inl rfl)).1

example : validateEmail "jane@example.com" = true := by decide
example : validateEmail "a b@c.d" = false := by decide
example : validateEmail "a@b" = false := by decide
example : validateEmail "a@b.c.d" = true := by decide
example : extractEmailAddress "Jane Doe <jane@example.com>" = "jane@example.com" := by decide
example : extractEmailAddress "write to a!b@c.d now" = "b@c.d" := by decide
example : extractEmailAddress "  a@b!.c  " = "a@b!.c" := by decide
example : parseSender "Jane Doe <jane@example.com>" = some "jane@example.com" := by decide
example : parseSender "x <bad> good@a.com" = none := by decide
example : extractSenderFromElement [⟨some "jane@example.com", none, none⟩] = some "jane@example.com" := by decide
example : waitForLabels (fun _ => true) 5000 = some (true, 100) := by decide
example : waitForLabels (fun _ => false) 1000 = some (false, 1100) := by decide
example : findFilterByMetadata "pfx " "News" ["a", "x pfx News y", "z"] = some 1 := by decide
example : findCreateFilterBtn ["Settings", "Create filter now"] = some 1 := by decide
example :
    updateExistingFilter "jane@example.com" (some ⟨"old@example.com", false, true⟩) =
      Except.ok (⟨"old@example.com | jane@example.com", false, true⟩,
        [UiAction.clickRow, UiAction.writeFrom "old@example.com | jane@example.com",
         UiAction.dispatchInput, UiAction.clickUpdate]) := by decide
example :
    (createOrUpdateFilter "p" "a@b.c" "L" ⟨"inbox", [], Except.ok (), Except.error "x"⟩).2.hash
      = settingsHash := by decide

end GmailAutoLabel
